import Mathlib

/-!
Shallow embedding of the minibatch augmentation sampler and the
early-stopping / checkpoint logic of the repository
(src/sdc/code/sdc_2dcnn.py, src/texting_driving/code/2d_cnn_lasagne.py,
src/texting_driving/code/3d_cnn.py), with proofs of the specification
claims about them.

Samples are modelled as nested lists (channels x height x width) over an
abstract pixel type, metric values as rationals, and the two sources of
randomness (the shuffled index array of np.random.shuffle and the
per-batch draw of np.random.choice) as explicit parameters.
-/

/-- A sample array of shape (channels, height, width); the pixel dtype is
kept abstract. -/
abbrev Sample (α : Type) : Type := List (List (List α))

/-- Horizontal flip sample[:, :, ::-1]: reverse the last (width) axis. -/
def flipSample {α : Type} (s : Sample α) : Sample α :=
  s.map (fun ch => ch.map List.reverse)

/-- Fancy-indexing gather xs[w]: numpy integer-array indexing yields a fresh
array whose row t is xs[w[t]]. -/
def gather {γ : Type} (d : γ) (xs : List γ) (w : List ℕ) : List γ :=
  w.map (fun i => xs.getD i d)

/-- num_changes = int(batchsize * .75). The float product batchsize * 0.75
is exact (0.75 is dyadic), so truncation gives floor(3 * batchsize / 4). -/
def num_changes (batchsize : ℕ) : ℕ := 3 * batchsize / 4

/-- distorts_per_cat = int(num_changes / 2) (true division, then truncation
toward zero by int()). -/
def distorts_per_cat (batchsize : ℕ) : ℕ := num_changes batchsize / 2

/-- flip_indcs = swap_indcs[0:distorts_per_cat]. -/
def flip_indcs (batchsize : ℕ) (swap : List ℕ) : List ℕ :=
  swap.take (distorts_per_cat batchsize)

/-- rotate_indcs = swap_indcs[distorts_per_cat:(2 * distorts_per_cat)]: the
slice keeps 2*h - h = h elements starting at position h, for
h = distorts_per_cat. -/
def rotate_indcs (batchsize : ℕ) (swap : List ℕ) : List ℕ :=
  (swap.drop (distorts_per_cat batchsize)).take (distorts_per_cat batchsize)

/-- batch_sample_input[flip_indcs] = batch_sample_input[flip_indcs, :, :, ::-1].
The right-hand side is evaluated from the batch as it is before the
assignment, then scattered to the listed positions. -/
def applyFlips {α : Type} (fl : List ℕ) (batch : List (Sample α)) :
    List (Sample α) :=
  fl.foldl (fun acc j => acc.set j (flipSample (batch.getD j []))) batch

/-- for i in rotate_indcs: batch[i] = random_2D_image_generator(batch[i]).
The opaque external perturbation function is the parameter rot; each
iteration reads the current state of the batch. -/
def applyRotations {α : Type} (rot : Sample α → Sample α) (rl : List ℕ)
    (batch : List (Sample α)) : List (Sample α) :=
  rl.foldl (fun acc j => acc.set j (rot (acc.getD j []))) batch

/-- The augmentation block of iterate_minibatches (sdc_2dcnn.py lines
118-127) acting on one gathered batch, with the drawn index array
swap_indcs of np.random.choice(batchsize, num_changes, replace=False) as a
parameter. -/
def augmentBatch {α : Type} (rot : Sample α → Sample α) (batchsize : ℕ)
    (swap : List ℕ) (batch : List (Sample α)) : List (Sample α) :=
  applyRotations rot (rotate_indcs batchsize swap)
    (applyFlips (flip_indcs batchsize swap) batch)

/-- Loop starts range(0, num_samps - batchsize + 1, batchsize): empty when
num_samps < batchsize (stop is nonpositive), else 0, b, 2b, ...,
floor((N - b) / b) * b. -/
def batchStarts (num_samps batchsize : ℕ) : List ℕ :=
  if num_samps < batchsize then []
  else (List.range ((num_samps - batchsize) / batchsize + 1)).map
    (fun j => j * batchsize)

/-- indcs = np.arange(num_samps), shuffled in place when shuffle is set; the
value after shuffling is the explicit parameter perm. -/
def indcsOf (num_samps : ℕ) (shuffle : Bool) (perm : List ℕ) : List ℕ :=
  if shuffle then perm else List.range num_samps

/-- batch_indcs = indcs[i:(i + batchsize)]. -/
def batchWindow (indcs : List ℕ) (batchsize i : ℕ) : List ℕ :=
  (indcs.drop i).take batchsize

/-- The per-batch index windows produced by one call. -/
def batchIndices (num_samps batchsize : ℕ) (indcs : List ℕ) :
    List (List ℕ) :=
  (batchStarts num_samps batchsize).map (batchWindow indcs batchsize)

/-- iterate_minibatches (sdc_2dcnn.py lines 109-128): for each loop start i,
gather the index window into a fresh batch, augment that gathered copy, and
yield it together with the targets gathered at the same window. draws i
models the np.random.choice result drawn during the iteration whose loop
variable is i. -/
def iterate_minibatches {α β : Type} (rot : Sample α → Sample α) (dβ : β)
    (inputs : List (Sample α)) (targets : List β) (batchsize : ℕ)
    (shuffle : Bool) (perm : List ℕ) (draws : ℕ → List ℕ) :
    List (List (Sample α) × List β) :=
  (batchStarts inputs.length batchsize).map (fun i =>
    (augmentBatch rot batchsize (draws i)
        (gather [] inputs
          (batchWindow (indcsOf inputs.length shuffle perm) batchsize i)),
     gather dβ targets
        (batchWindow (indcsOf inputs.length shuffle perm) batchsize i)))

/-- stop_early (sdc_2dcnn.py lines 130-157; identical in
2d_cnn_lasagne.py lines 164-194): with fewer than patience recorded epochs
return False, else compare the value exactly patience epochs back. -/
def stop_early (curr_val_acc : ℚ) (val_acc_list : List ℚ)
    (patience : ℕ) : Bool :=
  if val_acc_list.length < patience then false
  else decide
    (val_acc_list.getD (val_acc_list.length - patience) 0 > curr_val_acc)

/-- np.max of a nonempty list of metric values. -/
def npMax (l : List ℚ) : ℚ := l.foldl max l.headI

/-- The guard of save_weights (2d_cnn_lasagne.py line 243):
epoch % multiple == 0 or curr_val_acc > np.max(val_acc_list). -/
def save_weights_cond (epoch : ℕ) (curr_val_acc : ℚ)
    (val_acc_list : List ℚ) (multiple : ℕ) : Bool :=
  (epoch % multiple == 0) || decide (curr_val_acc > npMax val_acc_list)

/-- Bookkeeping state of the __main__ training loop of 2d_cnn_lasagne.py
(the same structure appears in sdc_2dcnn.py): the accumulated
epoch_accuracies, the best_network_weights_epoch pointer, the epochs at
which save_weights wrote a snapshot, and whether early stopping broke the
loop. -/
structure TrainState where
  accs : List ℚ
  best : ℕ
  saved : List ℕ
  stopped : Bool

/-- One epoch of the training loop (2d_cnn_lasagne.py lines 344-358): first
check stop_early against the accuracies recorded so far (breaking out if it
fires), then append the epoch's accuracy, then run save_weights on the
appended list, then move the best pointer when val_acc >= np.max of the
appended list. -/
def epochStep (patience multiple : ℕ) (st : TrainState) (epoch : ℕ)
    (v : ℚ) : TrainState :=
  if st.stopped then st
  else if stop_early v st.accs patience then { st with stopped := true }
  else
    { accs := st.accs ++ [v]
      best := if v ≥ npMax (st.accs ++ [v]) then epoch else st.best
      saved := if save_weights_cond epoch v (st.accs ++ [v]) multiple then
          st.saved ++ [epoch]
        else st.saved
      stopped := false }

/-- Run the training loop over the sequence of per-epoch validation
accuracies, epochs numbered 0, 1, 2, ... in order. -/
def runTraining (patience multiple : ℕ) (vals : List ℚ) : TrainState :=
  (vals.enum).foldl (fun st p => epochStep patience multiple st p.1 p.2)
    { accs := [], best := 0, saved := [], stopped := false }

/-- Claim C8: the horizontal flip transform (reversal of the last spatial
axis) is involutive: flipping any sample twice returns it exactly. -/
theorem flipSample_involutive {α : Type} (s : Sample α) :
    flipSample (flipSample s) = s := by
  simp [flipSample, List.map_map, Function.comp_def, List.reverse_reverse]

/-- Claim C7: with batchsize strictly larger than the dataset size, the
generator yields no batches at all (the loop range is empty). -/
theorem iterate_minibatches_empty_of_large_batch {α β : Type}
    (rot : Sample α → Sample α) (dβ : β) (inputs : List (Sample α))
    (targets : List β) (batchsize : ℕ) (shuffle : Bool) (perm : List ℕ)
    (draws : ℕ → List ℕ) (h : inputs.length < batchsize) :
    iterate_minibatches rot dβ inputs targets batchsize shuffle perm
      draws = [] := by
  simp [iterate_minibatches, batchStarts, if_pos h]

/-- Concrete run of the previous theorem: one sample, batch size 2. -/
theorem iterate_minibatches_empty_of_large_batch_witness :
    ([[[[(1 : ℤ)]]]] : List (Sample ℤ)).length < 2 ∧
      iterate_minibatches (fun s => s) (0 : ℤ) [[[[(1 : ℤ)]]]] [0] 2 false
        [] (fun _ => []) = [] :=
  ⟨by decide,
    iterate_minibatches_empty_of_large_batch _ _ _ _ _ _ _ _ (by decide)⟩

/-- Claim C4: stop_early returns False while fewer than patience epochs are
recorded, and otherwise returns True exactly when the value recorded
patience epochs earlier strictly exceeds the current value. -/
theorem stop_early_spec (curr : ℚ) (l : List ℚ) (patience : ℕ) :
    (l.length < patience → stop_early curr l patience = false) ∧
    (1 ≤ patience → patience ≤ l.length →
      (stop_early curr l patience = true ↔
        l.getD (l.length - patience) 0 > curr)) := by
  constructor
  · intro h
    simp [stop_early, if_pos h]
  · intro _ h2
    have hnot : ¬ l.length < patience := not_lt.mpr h2
    simp [stop_early, if_neg hnot]

/-- Concrete runs of stop_early: lookback value 2 beats current value 1 so
training stops; with only one epoch recorded and patience 2 it does not. -/
theorem stop_early_spec_witness :
    (stop_early 1 [2, 0] 2 = true ↔ ([2, 0] : List ℚ).getD 0 0 > 1) ∧
      stop_early 3 [2] 2 = false :=
  ⟨by
      have h := (stop_early_spec 1 [2, 0] 2).2 (by decide) (by decide)
      simpa using h,
    (stop_early_spec 3 [2] 2).1 (by decide)⟩

/-- The initial value of a left max-fold bounds itself. -/
theorem init_le_foldl_max (l : List ℚ) (a : ℚ) : a ≤ l.foldl max a := by
  induction l generalizing a with
  | nil => exact le_refl a
  | cons x xs ih => exact le_trans (le_max_left a x) (ih (max a x))

/-- Every member of a list bounds its left max-fold from below. -/
theorem mem_le_foldl_max (l : List ℚ) (a v : ℚ) (h : v ∈ l) :
    v ≤ l.foldl max a := by
  induction l generalizing a with
  | nil => cases h
  | cons x xs ih =>
    rcases List.mem_cons.mp h with h1 | h2
    · subst h1
      exact le_trans (le_max_right a v) (init_le_foldl_max xs (max a v))
    · exact ih (max a x) h2

/-- np.max dominates every member of the list. -/
theorem le_npMax_of_mem (l : List ℚ) (v : ℚ) (h : v ∈ l) : v ≤ npMax l :=
  mem_le_foldl_max l l.headI v h

/-- Claim C9: as called from the training loop the current accuracy is
already a member of val_acc_list, so the improvement disjunct
curr_val_acc > np.max(val_acc_list) of save_weights is always false and a
snapshot is written exactly when epoch % multiple == 0. -/
theorem save_weights_cond_in_loop (epoch : ℕ) (v : ℚ) (accs : List ℚ)
    (multiple : ℕ) (h : v ∈ accs) :
    decide (v > npMax accs) = false ∧
      save_weights_cond epoch v accs multiple = (epoch % multiple == 0) := by
  have hle : v ≤ npMax accs := le_npMax_of_mem accs v h
  have h1 : ¬ (v > npMax accs) := not_lt.mpr hle
  have h2 : decide (v > npMax accs) = false := decide_eq_false h1
  exact ⟨h2, by simp [save_weights_cond, h2]⟩

/-- Concrete run: at epoch 5 with accuracies [0, 1] (current value 1
already appended), no snapshot is written. -/
theorem save_weights_cond_in_loop_witness :
    (1 : ℚ) ∈ ([0, 1] : List ℚ) ∧
      (decide ((1 : ℚ) > npMax [0, 1]) = false ∧
        save_weights_cond 5 1 [0, 1] 100 = (5 % 100 == 0)) :=
  ⟨by decide, save_weights_cond_in_loop 5 1 [0, 1] 100 (by decide)⟩

/-- Claim C5: in the rolling-best pointer update of the training loop
(if val_acc >= np.max(epoch_accuracies): best = epoch), a tie with the best
value seen so far counts as an improvement: recording 1.0 then 1.0 leaves
the pointer at 0 after the first record and moves it to the later epoch 1
at the second. -/
theorem rolling_best_tie_later_epoch :
    (runTraining 200 100 [1]).best = 0 ∧
      (runTraining 200 100 [1, 1]).best = 1 := by decide

/-- Claim C2 fails on the code: running the loop with the script's default
patience 200 and multiple 100 on validation accuracies [0, 1] leaves the
best pointer at epoch 1 while the only persisted snapshot is epoch 0 (the
improvement branch of save_weights is dead, see save_weights_cond_in_loop,
and epoch 1 is not a multiple of 100); moreover with patience 2 the loop
reaches early stopping on accuracies [0, 1, 0, 0] in the same state, so
the os.rename of the epoch-1 snapshot targets a file that was never
written. -/
theorem best_epoch_snapshot_missing :
    ((runTraining 200 100 [0, 1]).best = 1 ∧
      (runTraining 200 100 [0, 1]).saved = [0] ∧
      (runTraining 200 100 [0, 1]).best ∉ (runTraining 200 100 [0, 1]).saved) ∧
    ((runTraining 2 100 [0, 1, 0, 0]).stopped = true ∧
      (runTraining 2 100 [0, 1, 0, 0]).best = 1 ∧
      (runTraining 2 100 [0, 1, 0, 0]).saved = [0]) := by decide

/-- Buffer store for the aliasing-sensitive reading of iterate_minibatches:
numpy arrays live in a list of buffers, the dataset inputs array is buffer
0 of ibufs, the dataset targets array buffer 0 of tbufs, and every numpy
advanced-indexing gather allocates a fresh buffer while in-place
assignments overwrite an existing one. -/
structure HeapState (α β : Type) where
  ibufs : List (List (Sample α))
  tbufs : List (List β)
  out : List (List (Sample α) × List β)

/-- One iteration of the loop body of iterate_minibatches, statement by
statement: batch_sample_input = inputs[batch_indcs] allocates a fresh
buffer bref (integer-array indexing copies), batch_sample_target likewise,
the vectorized flip assignment overwrites buffer bref, each rotation
iteration overwrites one element of buffer bref, and the yielded pair
reads buffers bref and tref. -/
def runBatchHeap {α β : Type} (rot : Sample α → Sample α) (dβ : β)
    (batchsize : ℕ) (indcs : List ℕ) (swap : List ℕ) (i : ℕ)
    (st : HeapState α β) : HeapState α β :=
  let w := batchWindow indcs batchsize i
  let bref := st.ibufs.length
  let ibufs1 := st.ibufs ++ [gather [] (st.ibufs.getD 0 []) w]
  let tref := st.tbufs.length
  let tbufs1 := st.tbufs ++ [gather dβ (st.tbufs.getD 0 []) w]
  let ibufs2 := ibufs1.set bref
    (applyFlips (flip_indcs batchsize swap) (ibufs1.getD bref []))
  let ibufs3 := (rotate_indcs batchsize swap).foldl
    (fun bufs j => bufs.set bref
      ((bufs.getD bref []).set j (rot ((bufs.getD bref []).getD j []))))
    ibufs2
  { ibufs := ibufs3
    tbufs := tbufs1
    out := st.out ++ [(ibufs3.getD bref [], tbufs1.getD tref [])] }

/-- Full run of iterate_minibatches over the buffer store, starting from a
store holding exactly the two dataset arrays. -/
def iterate_minibatches_heap {α β : Type} (rot : Sample α → Sample α)
    (dβ : β) (inputs : List (Sample α)) (targets : List β) (batchsize : ℕ)
    (shuffle : Bool) (perm : List ℕ) (draws : ℕ → List ℕ) :
    HeapState α β :=
  (batchStarts inputs.length batchsize).foldl
    (fun st i => runBatchHeap rot dβ batchsize
      (indcsOf inputs.length shuffle perm) (draws i) i st)
    { ibufs := [inputs], tbufs := [targets], out := [] }

/-- Appending a buffer does not change buffer 0 of a nonempty store. -/
theorem getD_zero_append {γ : Type} (d : γ) (l : List γ) (x : γ)
    (h : 1 ≤ l.length) : (l ++ [x]).getD 0 d = l.getD 0 d := by
  cases l with
  | nil => simp at h
  | cons y ys => rfl

/-- Overwriting a nonzero buffer index does not change buffer 0. -/
theorem getD_zero_set_of_ne {γ : Type} (d : γ) (l : List γ) (r : ℕ)
    (x : γ) (hr : r ≠ 0) : (l.set r x).getD 0 d = l.getD 0 d := by
  cases l with
  | nil => rfl
  | cons y ys =>
    cases r with
    | zero => exact absurd rfl hr
    | succ k => rfl

/-- A fold of overwrites of one fixed nonzero buffer index leaves buffer 0
unchanged, whatever the written contents are. -/
theorem foldl_set_getD_zero {γ : Type} (d : γ) (rl : List ℕ) (r : ℕ)
    (hr : r ≠ 0) (f : List γ → ℕ → γ) (bufs : List γ) :
    ((rl.foldl (fun b j => b.set r (f b j)) bufs).getD 0 d) =
      bufs.getD 0 d := by
  induction rl generalizing bufs with
  | nil => rfl
  | cons x xs ih =>
    rw [List.foldl_cons, ih, getD_zero_set_of_ne d bufs r (f bufs x) hr]

/-- A fold of overwrites keeps the number of buffers. -/
theorem foldl_set_length {γ : Type} (rl : List ℕ) (r : ℕ)
    (f : List γ → ℕ → γ) (bufs : List γ) :
    (rl.foldl (fun b j => b.set r (f b j)) bufs).length = bufs.length := by
  induction rl generalizing bufs with
  | nil => rfl
  | cons x xs ih => rw [List.foldl_cons, ih, List.length_set]

/-- One loop iteration preserves the two dataset buffers and keeps the
stores nonempty. -/
theorem runBatchHeap_frame {α β : Type} (rot : Sample α → Sample α)
    (dβ : β) (batchsize : ℕ) (indcs swap : List ℕ) (i : ℕ)
    (st : HeapState α β) (hi : 1 ≤ st.ibufs.length)
    (ht : 1 ≤ st.tbufs.length) :
    (runBatchHeap rot dβ batchsize indcs swap i st).ibufs.getD 0 [] =
        st.ibufs.getD 0 [] ∧
      (runBatchHeap rot dβ batchsize indcs swap i st).tbufs.getD 0 [] =
        st.tbufs.getD 0 [] ∧
      1 ≤ (runBatchHeap rot dβ batchsize indcs swap i st).ibufs.length ∧
      1 ≤ (runBatchHeap rot dβ batchsize indcs swap i st).tbufs.length := by
  have hbref : st.ibufs.length ≠ 0 := by omega
  simp only [runBatchHeap]
  refine ⟨?_, ?_, ?_, ?_⟩
  · rw [foldl_set_getD_zero _ _ _ hbref]
    rw [getD_zero_set_of_ne _ _ _ _ hbref]
    exact getD_zero_append _ _ _ hi
  · exact getD_zero_append _ _ _ ht
  · rw [foldl_set_length, List.length_set, List.length_append]
    omega
  · rw [List.length_append]
    omega

/-- Folding the loop body over any list of starts preserves the two
dataset buffers. -/
theorem foldl_batches_frame {α β : Type} (rot : Sample α → Sample α)
    (dβ : β) (batchsize : ℕ) (indcs : List ℕ) (draws : ℕ → List ℕ)
    (starts : List ℕ) :
    ∀ st : HeapState α β, 1 ≤ st.ibufs.length → 1 ≤ st.tbufs.length →
      ((starts.foldl (fun s i =>
          runBatchHeap rot dβ batchsize indcs (draws i) i s) st).ibufs.getD
            0 [] = st.ibufs.getD 0 [] ∧
        (starts.foldl (fun s i =>
          runBatchHeap rot dβ batchsize indcs (draws i) i s) st).tbufs.getD
            0 [] = st.tbufs.getD 0 []) := by
  induction starts with
  | nil => intro st h1 h2; exact ⟨rfl, rfl⟩
  | cons x xs ih =>
    intro st h1 h2
    obtain ⟨e1, e2, l1, l2⟩ :=
      runBatchHeap_frame rot dβ batchsize indcs (draws x) x st h1 h2
    rw [List.foldl_cons]
    obtain ⟨f1, f2⟩ :=
      ih (runBatchHeap rot dβ batchsize indcs (draws x) x st) l1 l2
    exact ⟨f1.trans e1, f2.trans e2⟩

/-- Claim C6: a full run of iterate_minibatches, with every in-place flip
and rotation assignment of every batch performed on the buffer store,
leaves the original dataset arrays (buffers 0) element-for-element
unchanged: only the freshly allocated batch copies are ever written. -/
theorem iterate_minibatches_heap_frame {α β : Type}
    (rot : Sample α → Sample α) (dβ : β) (inputs : List (Sample α))
    (targets : List β) (batchsize : ℕ) (shuffle : Bool) (perm : List ℕ)
    (draws : ℕ → List ℕ) :
    (iterate_minibatches_heap rot dβ inputs targets batchsize shuffle perm
        draws).ibufs.getD 0 [] = inputs ∧
      (iterate_minibatches_heap rot dβ inputs targets batchsize shuffle
        perm draws).tbufs.getD 0 [] = targets := by
  have h := foldl_batches_frame rot dβ batchsize
    (indcsOf inputs.length shuffle perm) draws
    (batchStarts inputs.length batchsize)
    { ibufs := [inputs], tbufs := [targets], out := [] }
    (by simp) (by simp)
  exact ⟨h.1, h.2⟩

/-- A fold of in-place writes at indices of l leaves every position outside
l unchanged, whatever the written values are. -/
theorem foldl_set_getD_not_mem {γ : Type} (d : γ) (f : List γ → ℕ → γ)
    (j : ℕ) :
    ∀ (l : List ℕ) (init : List γ), j ∉ l →
      (l.foldl (fun acc i => acc.set i (f acc i)) init).getD j d =
        init.getD j d := by
  intro l
  induction l with
  | nil => intro init _; rfl
  | cons x xs ih =>
    intro init hj
    have hx : x ≠ j := fun h =>
      hj (h ▸ List.mem_cons_self x xs)
    rw [List.foldl_cons, ih _ (fun h => hj (List.mem_cons_of_mem x h)),
      List.getD_eq_getElem?_getD, List.getD_eq_getElem?_getD,
      List.getElem?_set_ne hx]

/-- A fold of in-place writes at distinct indices, writing values that do
not depend on the evolving state, puts value g j at every j of l. -/
theorem foldl_set_getD_mem_const {γ : Type} (d : γ) (g : ℕ → γ) (j : ℕ) :
    ∀ (l : List ℕ) (init : List γ), l.Nodup → j ∈ l → j < init.length →
      (l.foldl (fun acc i => acc.set i (g i)) init).getD j d = g j := by
  intro l
  induction l with
  | nil => intro init _ hj _; cases hj
  | cons x xs ih =>
    intro init hnd hj hlt
    rw [List.foldl_cons]
    rcases List.mem_cons.mp hj with h1 | h2
    · subst h1
      have hnot : j ∉ xs := (List.nodup_cons.mp hnd).1
      rw [foldl_set_getD_not_mem d (fun _ i => g i) j xs _ hnot,
        List.getD_eq_getElem?_getD, List.getElem?_set_self hlt]
      rfl
    · have hlt2 : j < (init.set x (g x)).length := by
        rw [List.length_set]; exact hlt
      exact ih _ (List.nodup_cons.mp hnd).2 h2 hlt2

/-- A fold of in-place read-modify-writes at distinct indices applies r
exactly once to the original value at every j of l. -/
theorem foldl_set_getD_mem_read {γ : Type} (d : γ) (r : γ → γ) (j : ℕ) :
    ∀ (l : List ℕ) (init : List γ), l.Nodup → j ∈ l → j < init.length →
      (l.foldl (fun acc i => acc.set i (r (acc.getD i d))) init).getD j d =
        r (init.getD j d) := by
  intro l
  induction l with
  | nil => intro init _ hj _; cases hj
  | cons x xs ih =>
    intro init hnd hj hlt
    rw [List.foldl_cons]
    rcases List.mem_cons.mp hj with h1 | h2
    · subst h1
      have hnot : j ∉ xs := (List.nodup_cons.mp hnd).1
      rw [foldl_set_getD_not_mem d (fun acc i => r (acc.getD i d)) j xs _
          hnot,
        List.getD_eq_getElem?_getD, List.getElem?_set_self hlt]
      rfl
    · have hne : x ≠ j := by
        rintro rfl
        exact (List.nodup_cons.mp hnd).1 h2
      have hlt2 : j < (init.set x (r (init.getD x d))).length := by
        rw [List.length_set]; exact hlt
      rw [ih _ (List.nodup_cons.mp hnd).2 h2 hlt2,
        List.getD_eq_getElem?_getD, List.getD_eq_getElem?_getD,
        List.getElem?_set_ne hne, ← List.getD_eq_getElem?_getD]

/-- A fold of in-place writes preserves the array length. -/
theorem foldl_set_length_any {γ : Type} (f : List γ → ℕ → γ) :
    ∀ (l : List ℕ) (init : List γ),
      (l.foldl (fun acc i => acc.set i (f acc i)) init).length =
        init.length := by
  intro l
  induction l with
  | nil => intro init; rfl
  | cons x xs ih =>
    intro init
    rw [List.foldl_cons, ih, List.length_set]

/-- Claim C3: in each batch, the first distorts_per_cat drawn indices are
flipped, the next distorts_per_cat are rotated, every other position
(including the odd leftover drawn index) is untouched; exactly
2 * distorts_per_cat distinct samples receive a transform and at most
num_changes samples can differ from the pre-augmentation batch. -/
theorem augmentBatch_spec {α : Type} [DecidableEq α]
    (rot : Sample α → Sample α) (batchsize : ℕ) (swap : List ℕ)
    (batch : List (Sample α)) (hlen : batch.length = batchsize)
    (hk : swap.length = num_changes batchsize) (hnd : swap.Nodup)
    (hbound : ∀ j ∈ swap, j < batchsize) :
    (∀ j ∈ flip_indcs batchsize swap,
        (augmentBatch rot batchsize swap batch).getD j [] =
          flipSample (batch.getD j [])) ∧
    (∀ j ∈ rotate_indcs batchsize swap,
        (augmentBatch rot batchsize swap batch).getD j [] =
          rot (batch.getD j [])) ∧
    (∀ j, j ∉ flip_indcs batchsize swap → j ∉ rotate_indcs batchsize swap →
        (augmentBatch rot batchsize swap batch).getD j [] =
          batch.getD j []) ∧
    ((flip_indcs batchsize swap ++ rotate_indcs batchsize swap).length =
        2 * distorts_per_cat batchsize ∧
      (flip_indcs batchsize swap ++ rotate_indcs batchsize swap).Nodup) ∧
    ((List.range batchsize).filter (fun j =>
        decide ((augmentBatch rot batchsize swap batch).getD j [] ≠
          batch.getD j []))).length ≤ num_changes batchsize := by
  have h2d : 2 * distorts_per_cat batchsize ≤ num_changes batchsize := by
    have := Nat.div_mul_le_self (num_changes batchsize) 2
    simp only [distorts_per_cat]
    omega
  have hfl_len :
      (flip_indcs batchsize swap).length = distorts_per_cat batchsize := by
    simp only [flip_indcs, List.length_take, hk]
    have : distorts_per_cat batchsize ≤ num_changes batchsize :=
      Nat.div_le_self _ _
    omega
  have hrl_len :
      (rotate_indcs batchsize swap).length = distorts_per_cat batchsize := by
    simp only [rotate_indcs, List.length_take, List.length_drop, hk]
    omega
  have hfl_sub : (flip_indcs batchsize swap).Sublist swap := by
    simp only [flip_indcs]
    exact List.take_sublist _ _
  have happ_sub :
      (flip_indcs batchsize swap ++ rotate_indcs batchsize swap).Sublist
        swap := by
    have h1 : (rotate_indcs batchsize swap).Sublist
        (swap.drop (distorts_per_cat batchsize)) := by
      simp only [rotate_indcs]
      exact List.take_sublist _ _
    have h2 := List.Sublist.append_left h1
      (swap.take (distorts_per_cat batchsize))
    rw [List.take_append_drop] at h2
    exact h2
  have happ_nd :
      (flip_indcs batchsize swap ++ rotate_indcs batchsize swap).Nodup :=
    List.Nodup.sublist happ_sub hnd
  have hfl_nd : (flip_indcs batchsize swap).Nodup :=
    (List.nodup_append.mp happ_nd).1
  have hrl_nd : (rotate_indcs batchsize swap).Nodup :=
    (List.nodup_append.mp happ_nd).2.1
  have hdisj :
      (flip_indcs batchsize swap).Disjoint (rotate_indcs batchsize swap) :=
    (List.nodup_append.mp happ_nd).2.2
  have hrl_subS : ∀ j ∈ rotate_indcs batchsize swap, j ∈ swap := by
    intro j hj
    exact happ_sub.subset (List.mem_append.mpr (Or.inr hj))
  have haug : augmentBatch rot batchsize swap batch =
      (rotate_indcs batchsize swap).foldl
        (fun acc i => acc.set i (rot (acc.getD i [])))
        ((flip_indcs batchsize swap).foldl
          (fun acc i => acc.set i (flipSample (batch.getD i []))) batch) :=
    rfl
  have hflipart : ∀ j ∈ flip_indcs batchsize swap,
      (augmentBatch rot batchsize swap batch).getD j [] =
        flipSample (batch.getD j []) := by
    intro j hj
    have hjlen : j < batch.length := by
      rw [hlen]
      exact hbound j (hfl_sub.subset hj)
    have hjnr : j ∉ rotate_indcs batchsize swap := fun hr => hdisj hj hr
    have e1 : (augmentBatch rot batchsize swap batch).getD j [] =
        ((flip_indcs batchsize swap).foldl
          (fun acc i => acc.set i (flipSample (batch.getD i [])))
          batch).getD j [] := by
      rw [haug]
      exact foldl_set_getD_not_mem [] (fun acc i => rot (acc.getD i [])) j
        _ _ hjnr
    exact e1.trans
      (foldl_set_getD_mem_const [] (fun i => flipSample (batch.getD i []))
        j _ batch hfl_nd hj hjlen)
  have hrotpart : ∀ j ∈ rotate_indcs batchsize swap,
      (augmentBatch rot batchsize swap batch).getD j [] =
        rot (batch.getD j []) := by
    intro j hj
    have hjlen : j < batch.length := by
      rw [hlen]
      exact hbound j (hrl_subS j hj)
    have hjnf : j ∉ flip_indcs batchsize swap := fun hf => hdisj hf hj
    have hlenE := foldl_set_length_any
      (fun acc i => flipSample (batch.getD i []))
      (flip_indcs batchsize swap) batch
    have hjlen2 : j < ((flip_indcs batchsize swap).foldl
        (fun acc i => acc.set i (flipSample (batch.getD i [])))
        batch).length := by
      rw [hlenE]
      exact hjlen
    have e1 : (augmentBatch rot batchsize swap batch).getD j [] =
        rot (((flip_indcs batchsize swap).foldl
          (fun acc i => acc.set i (flipSample (batch.getD i [])))
          batch).getD j []) := by
      rw [haug]
      exact foldl_set_getD_mem_read [] rot j _ _ hrl_nd hj hjlen2
    have e2 := foldl_set_getD_not_mem []
      (fun acc i => flipSample (batch.getD i [])) j
      (flip_indcs batchsize swap) batch hjnf
    rw [e1, e2]
  have hunmod : ∀ j, j ∉ flip_indcs batchsize swap →
      j ∉ rotate_indcs batchsize swap →
      (augmentBatch rot batchsize swap batch).getD j [] =
        batch.getD j [] := by
    intro j h1 h2
    have e1 : (augmentBatch rot batchsize swap batch).getD j [] =
        ((flip_indcs batchsize swap).foldl
          (fun acc i => acc.set i (flipSample (batch.getD i [])))
          batch).getD j [] := by
      rw [haug]
      exact foldl_set_getD_not_mem [] (fun acc i => rot (acc.getD i [])) j
        _ _ h2
    exact e1.trans (foldl_set_getD_not_mem []
      (fun acc i => flipSample (batch.getD i [])) j
      (flip_indcs batchsize swap) batch h1)
  have happ_len :
      (flip_indcs batchsize swap ++ rotate_indcs batchsize swap).length =
        2 * distorts_per_cat batchsize := by
    rw [List.length_append, hfl_len, hrl_len]
    omega
  refine ⟨hflipart, hrotpart, hunmod, ⟨happ_len, happ_nd⟩, ?_⟩
  have hndf : ((List.range batchsize).filter (fun j =>
      decide ((augmentBatch rot batchsize swap batch).getD j [] ≠
        batch.getD j []))).Nodup :=
    List.Nodup.filter _ (List.nodup_range batchsize)
  have hsubset : ∀ x ∈ (List.range batchsize).filter (fun j =>
      decide ((augmentBatch rot batchsize swap batch).getD j [] ≠
        batch.getD j [])),
      x ∈ flip_indcs batchsize swap ++ rotate_indcs batchsize swap := by
    intro x hx
    have hx2 := List.mem_filter.mp hx
    by_contra hnotin
    rw [List.mem_append] at hnotin
    push_neg at hnotin
    exact (of_decide_eq_true hx2.2) (hunmod x hnotin.1 hnotin.2)
  calc ((List.range batchsize).filter (fun j =>
        decide ((augmentBatch rot batchsize swap batch).getD j [] ≠
          batch.getD j []))).length
      = ((List.range batchsize).filter (fun j =>
        decide ((augmentBatch rot batchsize swap batch).getD j [] ≠
          batch.getD j []))).toFinset.card :=
        (List.toFinset_card_of_nodup hndf).symm
    _ ≤ (flip_indcs batchsize swap ++
          rotate_indcs batchsize swap).toFinset.card := by
        apply Finset.card_le_card
        intro x hx
        rw [List.mem_toFinset] at hx ⊢
        exact hsubset x hx
    _ ≤ (flip_indcs batchsize swap ++
          rotate_indcs batchsize swap).length :=
        List.toFinset_card_le _
    _ = 2 * distorts_per_cat batchsize := happ_len
    _ ≤ num_changes batchsize := h2d

/-- Concrete run of augmentBatch_spec: batch size 4 draws num_changes 3
indices [2, 0, 1]; index 2 is flipped, index 0 rotated, indices 1 (the odd
leftover draw) and 3 are untouched. -/
theorem augmentBatch_spec_witness :
    ([[[[0]]], [[[1]]], [[[2]]], [[[3]]]] : List (Sample ℤ)).length = 4 ∧
    ([2, 0, 1] : List ℕ).length = num_changes 4 ∧
    ([2, 0, 1] : List ℕ).Nodup ∧
    (∀ j ∈ ([2, 0, 1] : List ℕ), j < 4) ∧
    (∀ j ∈ flip_indcs 4 [2, 0, 1],
      (augmentBatch (fun _ => [[[9]]]) 4 [2, 0, 1]
          ([[[[0]]], [[[1]]], [[[2]]], [[[3]]]] : List (Sample ℤ))).getD
            j [] =
        flipSample (([[[[0]]], [[[1]]], [[[2]]], [[[3]]]] :
          List (Sample ℤ)).getD j [])) :=
  ⟨by decide, by decide, by decide, by decide,
    (augmentBatch_spec (fun _ => [[[9]]]) 4 [2, 0, 1]
      [[[[0]]], [[[1]]], [[[2]]], [[[3]]]]
      (by decide) (by decide) (by decide) (by decide)).1⟩

/-- Taking m of a unit-step range keeps its first min m n entries. -/
theorem take_range'_min :
    ∀ (m n s : ℕ), (List.range' s n).take m = List.range' s (min m n) := by
  intro m
  induction m with
  | zero => intro n s; simp
  | succ k ih =>
    intro n s
    cases n with
    | zero => simp
    | succ n' =>
      rw [List.range'_succ, List.take_succ_cons, ih, Nat.succ_min_succ,
        List.range'_succ]

/-- Dropping k of range N leaves the unit-step range from k of the
remaining N - k naturals. -/
theorem drop_range_eq (N k : ℕ) (h : k ≤ N) :
    (List.range N).drop k = List.range' k (N - k) := by
  have e : List.range' 0 k ++ List.range' k (N - k) = List.range' 0 N := by
    have e1 := List.range'_append 0 k (N - k) 1
    simp only [one_mul, Nat.zero_add] at e1
    rw [Nat.sub_add_cancel h] at e1
    exact e1
  rw [List.range_eq_range', ← e]
  exact List.drop_left' (List.length_range' 0 1 k)

/-- With a positive batchsize, the loop starts are exactly the multiples
j * batchsize for j below floor(num_samps / batchsize). -/
theorem batchStarts_eq (N b : ℕ) (hb : 1 ≤ b) :
    batchStarts N b = (List.range (N / b)).map (fun j => j * b) := by
  by_cases hN : N < b
  · rw [batchStarts, if_pos hN, Nat.div_eq_of_lt hN]
    rfl
  · rw [batchStarts, if_neg hN]
    have h1 : N - b + b = N := Nat.sub_add_cancel (le_of_not_lt hN)
    have h3 : (N - b) / b + 1 = N / b := by
      have h2 := Nat.add_div_right (N - b) hb
      rw [h1] at h2
      omega
    rw [h3]

/-- Concatenating m consecutive unit-step windows of width b starting at s
gives the unit-step range of length m * b from s. -/
theorem join_window_ranges (b : ℕ) :
    ∀ (m s : ℕ),
      ((List.range m).map (fun j => List.range' (s + j * b) b)).flatten =
        List.range' s (m * b) := by
  intro m
  induction m with
  | zero => intro s; simp
  | succ n ih =>
    intro s
    rw [List.range_succ, List.map_append, List.flatten_append, ih s]
    simp only [List.map_cons, List.map_nil, List.flatten_cons,
      List.flatten_nil, List.append_nil]
    have e := List.range'_append s (n * b) b 1
    simp only [one_mul] at e
    rw [e]
    congr 1
    ring

/-- Augmentation never changes the number of samples in the batch. -/
theorem augmentBatch_length {α : Type} (rot : Sample α → Sample α)
    (batchsize : ℕ) (swap : List ℕ) (batch : List (Sample α)) :
    (augmentBatch rot batchsize swap batch).length = batch.length := by
  have h1 := foldl_set_length_any (γ := Sample α)
    (fun acc i => rot (acc.getD i []))
    (rotate_indcs batchsize swap)
    (applyFlips (flip_indcs batchsize swap) batch)
  have h2 := foldl_set_length_any (γ := Sample α)
    (fun acc i => flipSample (batch.getD i []))
    (flip_indcs batchsize swap) batch
  exact h1.trans h2

/-- Claim C1: with shuffle disabled the generator yields exactly
floor(N / batchsize) batches of exactly batchsize samples and labels each,
its index windows are the consecutive blocks j*batchsize..j*batchsize+
batchsize-1 of the identity order, every index below
batchsize * floor(N / batchsize) is gathered into exactly one window, and
every later index into none. -/
theorem iterate_minibatches_noshuffle_partition {α β : Type}
    (rot : Sample α → Sample α) (dβ : β) (inputs : List (Sample α))
    (targets : List β) (batchsize : ℕ) (perm : List ℕ)
    (draws : ℕ → List ℕ) (hb : 1 ≤ batchsize)
    (_hbN : batchsize ≤ inputs.length)
    (_ht : targets.length = inputs.length) :
    (iterate_minibatches rot dβ inputs targets batchsize false perm
        draws).length = inputs.length / batchsize ∧
    (∀ p ∈ iterate_minibatches rot dβ inputs targets batchsize false perm
        draws, p.1.length = batchsize ∧ p.2.length = batchsize) ∧
    (∀ j, j < inputs.length / batchsize →
      (batchIndices inputs.length batchsize
          (indcsOf inputs.length false perm)).getD j [] =
        (List.range batchsize).map (fun t => j * batchsize + t)) ∧
    (∀ idx, idx < batchsize * (inputs.length / batchsize) →
      ((batchIndices inputs.length batchsize
          (indcsOf inputs.length false perm)).flatten).count idx = 1) ∧
    (∀ idx, batchsize * (inputs.length / batchsize) ≤ idx →
      ((batchIndices inputs.length batchsize
          (indcsOf inputs.length false perm)).flatten).count idx = 0) := by
  have hind : indcsOf inputs.length false perm =
      List.range inputs.length := rfl
  have hstarts := batchStarts_eq inputs.length batchsize hb
  have hwin : ∀ j, j < inputs.length / batchsize →
      batchWindow (List.range inputs.length) batchsize (j * batchsize) =
        List.range' (j * batchsize) batchsize := by
    intro j hj
    have h1 : (j + 1) * batchsize ≤
        (inputs.length / batchsize) * batchsize :=
      Nat.mul_le_mul_right batchsize (Nat.succ_le_of_lt hj)
    have h2 : (inputs.length / batchsize) * batchsize ≤ inputs.length :=
      Nat.div_mul_le_self _ _
    have h3 : (j + 1) * batchsize = j * batchsize + batchsize := by ring
    have hjb : j * batchsize + batchsize ≤ inputs.length := by omega
    have hle : j * batchsize ≤ inputs.length := by omega
    rw [batchWindow, drop_range_eq _ _ hle, take_range'_min]
    congr 1
    omega
  have hflat : (batchIndices inputs.length batchsize
      (indcsOf inputs.length false perm)).flatten =
      List.range ((inputs.length / batchsize) * batchsize) := by
    rw [hind, batchIndices, hstarts, List.map_map]
    have hcong : ∀ j ∈ List.range (inputs.length / batchsize),
        (batchWindow (List.range inputs.length) batchsize ∘
          fun j => j * batchsize) j =
          List.range' (0 + j * batchsize) batchsize := by
      intro j hj
      simp only [Function.comp_apply, Nat.zero_add]
      exact hwin j (List.mem_range.mp hj)
    rw [List.map_congr_left hcong,
      join_window_ranges batchsize (inputs.length / batchsize) 0,
      ← List.range_eq_range']
  refine ⟨?_, ?_, ?_, ?_, ?_⟩
  · simp [iterate_minibatches, hstarts]
  · intro p hp
    simp only [iterate_minibatches] at hp
    obtain ⟨i, hi, rfl⟩ := List.mem_map.mp hp
    rw [hstarts] at hi
    obtain ⟨j, hj, rfl⟩ := List.mem_map.mp hi
    have hj' : j < inputs.length / batchsize := List.mem_range.mp hj
    have hw := hwin j hj'
    dsimp only
    constructor
    · rw [augmentBatch_length]
      simp only [gather, List.length_map]
      rw [hind, hw, List.length_range']
    · simp only [gather, List.length_map]
      rw [hind, hw, List.length_range']
  · intro j hj
    have hlenbi : (batchIndices inputs.length batchsize
        (indcsOf inputs.length false perm)).length =
        inputs.length / batchsize := by
      simp [batchIndices, hstarts]
    have hj2 : j < (batchIndices inputs.length batchsize
        (indcsOf inputs.length false perm)).length := by
      rw [hlenbi]; exact hj
    rw [List.getD_eq_getElem _ _ hj2]
    simp only [batchIndices, hstarts, List.getElem_map, List.getElem_range]
    rw [hind, hwin j hj, List.range'_eq_map_range]
  · intro idx hidx
    rw [hflat]
    have hmc : batchsize * (inputs.length / batchsize) =
        (inputs.length / batchsize) * batchsize := Nat.mul_comm _ _
    exact List.count_eq_one_of_mem (List.nodup_range _)
      (List.mem_range.mpr (by omega))
  · intro idx hidx
    rw [hflat]
    apply List.count_eq_zero_of_not_mem
    intro hmem
    have hlt := List.mem_range.mp hmem
    have hmc : batchsize * (inputs.length / batchsize) =
        (inputs.length / batchsize) * batchsize := Nat.mul_comm _ _
    omega

/-- Concrete run of the partition theorem: 5 samples, batch size 2 yields
2 batches; sample 4 is dropped. -/
theorem iterate_minibatches_noshuffle_partition_witness :
    ((1 : ℕ) ≤ 2 ∧
      2 ≤ ([[[[0]]], [[[1]]], [[[2]]], [[[3]]], [[[4]]]] :
        List (Sample ℤ)).length ∧
      ([10, 20, 30, 40, 50] : List ℤ).length =
        ([[[[0]]], [[[1]]], [[[2]]], [[[3]]], [[[4]]]] :
          List (Sample ℤ)).length) ∧
    (iterate_minibatches (fun s => s) (0 : ℤ)
        [[[[0]]], [[[1]]], [[[2]]], [[[3]]], [[[4]]]] [10, 20, 30, 40, 50]
        2 false [] (fun _ => [0])).length =
      ([[[[0]]], [[[1]]], [[[2]]], [[[3]]], [[[4]]]] :
        List (Sample ℤ)).length / 2 :=
  ⟨⟨by decide, by decide, by decide⟩,
    (iterate_minibatches_noshuffle_partition (fun s => s) (0 : ℤ)
      [[[[0]]], [[[1]]], [[[2]]], [[[3]]], [[[4]]]] [10, 20, 30, 40, 50]
      2 [] (fun _ => [0]) (by decide) (by decide) (by decide)).1⟩

/-- Claim C10: the label component of every yielded batch is exactly the
targets array gathered at the batch's (possibly permuted) index window, in
window order; the augmentation folds act only on the sample component. -/
theorem iterate_minibatches_targets_gather {α β : Type}
    (rot : Sample α → Sample α) (dβ : β) (inputs : List (Sample α))
    (targets : List β) (batchsize : ℕ) (shuffle : Bool) (perm : List ℕ)
    (draws : ℕ → List ℕ) (j : ℕ)
    (hj : j < (iterate_minibatches rot dβ inputs targets batchsize shuffle
      perm draws).length) :
    ((iterate_minibatches rot dβ inputs targets batchsize shuffle perm
        draws).getD j ([], [])).2 =
      ((batchIndices inputs.length batchsize
          (indcsOf inputs.length shuffle perm)).getD j []).map
        (fun i => targets.getD i dβ) := by
  have hj1 : j < (batchStarts inputs.length batchsize).length := by
    simpa [iterate_minibatches] using hj
  have hj2 : j < (batchIndices inputs.length batchsize
      (indcsOf inputs.length shuffle perm)).length := by
    simpa [batchIndices] using hj1
  rw [List.getD_eq_getElem _ _ hj, List.getD_eq_getElem _ _ hj2]
  simp only [iterate_minibatches, batchIndices, List.getElem_map]
  rfl

/-- Concrete run of the targets theorem: 3 samples, shuffled order
[2, 0, 1], batch size 2: the one batch carries labels [30, 10]. -/
theorem iterate_minibatches_targets_gather_witness :
    0 < (iterate_minibatches (fun s => s) (0 : ℤ)
        [[[[0]]], [[[1]]], [[[2]]]] [10, 20, 30] 2 true [2, 0, 1]
        (fun _ => [0])).length ∧
    ((iterate_minibatches (fun s => s) (0 : ℤ)
        [[[[0]]], [[[1]]], [[[2]]]] [10, 20, 30] 2 true [2, 0, 1]
        (fun _ => [0])).getD 0 ([], [])).2 =
      ((batchIndices ([[[[0]]], [[[1]]], [[[2]]]] :
          List (Sample ℤ)).length 2 (indcsOf 3 true [2, 0, 1])).getD
        0 []).map (fun i => ([10, 20, 30] : List ℤ).getD i 0) :=
  ⟨by decide,
    iterate_minibatches_targets_gather (fun s => s) (0 : ℤ)
      [[[[0]]], [[[1]]], [[[2]]]] [10, 20, 30] 2 true [2, 0, 1]
      (fun _ => [0]) 0 (by decide)⟩
